import Mathlib

/-!
Shallow embedding of the version-resolution and tag-mutation engine of the
vscode-monorepo-git-tag repository (`src/utils/gitUtils.ts`).

Subprocess invocations (`execAsync`), the repository probe and UI calls are
modelled by passing their outcomes as explicit arguments: a JavaScript
exception thrown by a step is an `Except.error`, a resolved promise is
`Except.ok stdout`.  Strings are manipulated as `List Char` where that makes
the recursion visible.
-/

namespace GitTag

/-- JavaScript `s.split('.')` on the character list of `s` (helper producing
the head field and the remaining fields). -/
def splitDotCore : List Char → List Char × List (List Char)
  | [] => ([], [])
  | c :: rest =>
    let pr := splitDotCore rest
    if c = '.' then ([], pr.1 :: pr.2) else (c :: pr.1, pr.2)

/-- JavaScript `s.split('.')`: the list of fields between `'.'` separators;
`"".split('.')` is `[""]`. -/
def splitDot (cs : List Char) : List (List Char) :=
  (splitDotCore cs).1 :: (splitDotCore cs).2

/-- JavaScript `s.split('\n')` (helper). -/
def splitNlCore : List Char → List Char × List (List Char)
  | [] => ([], [])
  | c :: rest =>
    let pr := splitNlCore rest
    if c = '\n' then ([], pr.1 :: pr.2) else (c :: pr.1, pr.2)

/-- JavaScript `s.split('\n')` as lists of characters. -/
def splitNl (cs : List Char) : List (List Char) :=
  (splitNlCore cs).1 :: (splitNlCore cs).2

/-- Decimal value of a digit character list, most significant first. -/
def natOfDigits (cs : List Char) : Nat :=
  cs.foldl (fun a c => a * 10 + (c.toNat - 48)) 0

/-- JavaScript `Number(s)`, restricted to the strings this code feeds it
(fields split out of candidate version strings): the empty string is `0`,
a nonempty all-digit string is its decimal value, anything else is `NaN`,
modelled as `none`. -/
def jsNumber (cs : List Char) : Option Nat :=
  if cs.all Char.isDigit then some (natOfDigits cs) else none

/-- JavaScript `a !== b` on two numbers-or-`NaN` (`NaN !== x` is true). -/
def numNe : Option Nat → Option Nat → Bool
  | some a, some b => a ≠ b
  | _, _ => true

/-- JavaScript `a - b` on two numbers-or-`NaN` (`NaN` propagates). -/
def numSub : Option Nat → Option Nat → Option Int
  | some a, some b => some ((a : Int) - b)
  | _, _ => none

/-- Base-10 digits of `n`, least significant first, by fuel-bounded
division (structurally recursive so that closed instances evaluate). -/
def natDigitsAux : Nat → Nat → List Nat
  | 0, _ => []
  | fuel + 1, n => if n = 0 then [] else n % 10 :: natDigitsAux fuel (n / 10)

/-- Base-10 digits of `n`, least significant first. -/
def natDigitsLSB (n : Nat) : List Nat :=
  natDigitsAux n n

/-- Decimal digit characters of `n`, most significant first (JavaScript
`String(n)` for a non-negative integer). -/
def natRepr (n : Nat) : List Char :=
  if n = 0 then ['0']
  else ((natDigitsLSB n).map (fun d => Char.ofNat (48 + d))).reverse

/-- JavaScript `String(n)` / `Array.prototype.join` rendering of one part:
a number prints in decimal, `NaN` prints as `"NaN"`. -/
def jsNumToString : Option Nat → List Char
  | some n => natRepr n
  | none => ['N', 'a', 'N']

/-! ### The regular-expression fragment the source constructs

`isValidVersion` builds `new RegExp("^@" + appName + "/\\d+\\.\\d+\\.\\d+$")`
and `getLatestTagVersion` builds `new RegExp("@" + appName + "/(.*)")`, with
`appName` spliced into the pattern text unescaped.  We model the fragment of
JavaScript regular expressions these constructed patterns can fall into:
single-character atoms (a literal character, `.`, `\d`), each optionally
under `+`, plus the end anchor.  Patterns using constructs outside the
fragment fail to parse (`none`); the theorems below only instantiate
namespaces inside the fragment. -/

/-- A single-character regex atom. -/
inductive Atom where
  | ch (c : Char)
  | dot
  | digit
deriving DecidableEq

/-- One item of a pattern: an atom, a `+`-repeated atom, or the `$` anchor. -/
inductive Item where
  | once (a : Atom)
  | plus (a : Atom)
  | anchorEnd
deriving DecidableEq

/-- Does the atom match one character?  (`.` matches anything except a line
terminator.) -/
def atomMatch : Atom → Char → Bool
  | .ch c, x => c = x
  | .dot, x => x ≠ '\n'
  | .digit, x => x.isDigit

/-- Deterministic greedy backtracking matcher, as a JavaScript engine runs a
sequence of quantified single-character atoms: `some rest` is the unconsumed
suffix after the leftmost-greedy match of `items` at the front of `cs`.
The parsers below only ever place the end anchor in final position, so its
case consumes the rest of the item list. -/
def tryMatch : List Item → List Char → Option (List Char)
  | [], cs => some cs
  | .once _ :: _, [] => none
  | .once a :: rest, c :: cs =>
    if atomMatch a c then tryMatch rest cs else none
  | .plus _ :: _, [] => none
  | .plus a :: rest, c :: cs =>
    if atomMatch a c then
      match tryMatch (.plus a :: rest) cs with
      | some r => some r
      | none => tryMatch rest cs
    else none
  | .anchorEnd :: rest, cs => if cs.isEmpty && rest.isEmpty then some [] else none

/-- Characters that start a regex construct outside the modelled fragment
(or are quantifiers, handled by `parseItems` itself). -/
def specialChar (c : Char) : Bool :=
  c = '+' || c = '*' || c = '?' || c = '(' || c = ')' || c = '[' || c = ']' ||
  c = '{' || c = '}' || c = '|' || c = '^' || c = '$'

/-- The atom denoted by an escape sequence `\e`: `\d` is the digit class,
an escaped non-alphanumeric character is that literal character, other
letter escapes are outside the modelled fragment. -/
def escAtom (e : Char) : Option Atom :=
  if e = 'd' then some .digit
  else if e.isAlphanum then none
  else some (.ch e)

/-- The atom denoted by a plain pattern character: `.` is the any-char atom,
quantifiers and group/class/anchor characters are outside the fragment,
anything else is a literal. -/
def plainAtom (c : Char) : Option Atom :=
  if c = '\\' then none
  else if c = '.' then some .dot
  else if specialChar c then none
  else some (.ch c)

/-- Parse pattern text into items: an atom (escape or plain character),
optionally followed by `+`.  Constructs outside the fragment give `none`. -/
def parseItems : List Char → Option (List Item)
  | [] => some []
  | '\\' :: [] => none
  | '\\' :: e :: '+' :: rest =>
    match escAtom e with
    | some a => (parseItems rest).map (fun l => .plus a :: l)
    | none => none
  | '\\' :: e :: rest =>
    match escAtom e with
    | some a => (parseItems rest).map (fun l => .once a :: l)
    | none => none
  | c :: '+' :: rest =>
    match plainAtom c with
    | some a => (parseItems rest).map (fun l => .plus a :: l)
    | none => none
  | c :: rest =>
    match plainAtom c with
    | some a => (parseItems rest).map (fun l => .once a :: l)
    | none => none

/-- Parse a fully anchored pattern `^…$` (the shape `isValidVersion` always
constructs); the trailing anchor becomes an explicit `anchorEnd` item. -/
def parseAnchored (p : List Char) : Option (List Item) :=
  match p with
  | c :: rest =>
    if c = '^' then
      match rest.getLast? with
      | some d =>
        if d = '$' then (parseItems rest.dropLast).map (fun l => l ++ [.anchorEnd])
        else none
      | none => none
    else none
  | [] => none

/-- `new RegExp(p).test(s)` for an anchored pattern `p`: does the item list
match the whole string? -/
def regexTestAnchored (p : List Char) (s : List Char) : Bool :=
  match parseAnchored p with
  | some items => (tryMatch items s).isSome
  | none => false

/-- The pattern text `\d+\.\d+\.\d+` for the version half. -/
def versionPatternTail : List Char :=
  ['\\', 'd', '+', '\\', '.', '\\', 'd', '+', '\\', '.', '\\', 'd', '+']

/-- The pattern text `^@<appName>/\d+\.\d+\.\d+$` that `isValidVersion`
hands to `new RegExp`, the application name spliced in unescaped. -/
def validationPattern (appName : String) : List Char :=
  '^' :: (('@' :: appName.data ++ '/' :: versionPatternTail) ++ ['$'])

/-- `isValidVersion` (gitUtils.ts line 32): tests the tag text against
`new RegExp("^@" + appName + "/\\d+\\.\\d+\\.\\d+$")`. -/
def isValidVersion (version : String) (appName : String) : Bool :=
  regexTestAnchored (validationPattern appName) version.data

/-- Leftmost search: the JavaScript engine tries the pattern at every start
position from the left; `some rest` is the unconsumed suffix after the
first position where it matches. -/
def searchFrom (items : List Item) : List Char → Option (List Char)
  | [] => tryMatch items []
  | c :: cs2 =>
    match tryMatch items (c :: cs2) with
    | some r => some r
    | none => searchFrom items cs2

/-- The version-extraction step of `getLatestTagVersion` (line 110):
`tag.match(new RegExp("@" + appName + "/(.*)"))`, returning capture group 1
on a match and `none` when the tag does not match.  The trailing `(.*)`
always succeeds and greedily captures the rest of the line (`.` stops at a
line terminator), so group 1 is everything after the leftmost-greedy match
of `@<appName>/`, up to a newline. -/
def extractVersion (appName : String) (tag : List Char) : Option (List Char) :=
  match parseItems ('@' :: appName.data ++ ['/']) with
  | none => none
  | some items =>
    match searchFrom items tag with
    | none => none
    | some rest => some (rest.takeWhile (fun c => c ≠ '\n'))

/-! ### String plumbing around the subprocess output -/

/-- JavaScript `s.trim()`, restricted to the ASCII whitespace that git
output can carry. -/
def trimChars (cs : List Char) : List Char :=
  ((cs.dropWhile Char.isWhitespace).reverse.dropWhile Char.isWhitespace).reverse

/-- Insertion-order deduplication, as `Array.from(new Set(list))` produces:
keep the first occurrence of each element (helper with the set of elements
already seen). -/
def dedupGo (seen : List (List Char)) : List (List Char) → List (List Char)
  | [] => []
  | x :: xs => if x ∈ seen then dedupGo seen xs else x :: dedupGo (x :: seen) xs

/-- `Array.from(new Set(list))`. -/
def jsSetDedup (l : List (List Char)) : List (List Char) :=
  dedupGo [] l

/-! ### The sort comparator and the sort -/

/-- The numeric parts the comparator computes: `v.split('.').map(Number)`.
Indexing past the end (`undefined`) and `NaN` are both `none`; either one
drives the subtraction below to `NaN` exactly as in JavaScript. -/
def versionParts (v : List Char) : List (Option Nat) :=
  (splitDot v).map jsNumber

/-- The three numeric components of a version string when the comparator
sees exactly three numbers, `none` otherwise. -/
def versionTriple (v : List Char) : Option (Nat × Nat × Nat) :=
  match versionParts v with
  | [some a, some b, some c] => some (a, b, c)
  | _ => none

/-- The comparator of `getLatestTagVersion` (lines 126-142): compare major,
then minor, then patch, returning `bParts[i] - aParts[i]` (descending
order); `none` is a `NaN` result. -/
def versionCmp (a b : List Char) : Option Int :=
  let ap := versionParts a
  let bp := versionParts b
  if numNe (ap.getD 0 none) (bp.getD 0 none) then numSub (bp.getD 0 none) (ap.getD 0 none)
  else if numNe (ap.getD 1 none) (bp.getD 1 none) then numSub (bp.getD 1 none) (ap.getD 1 none)
  else numSub (bp.getD 2 none) (ap.getD 2 none)

/-- `versions.sort(comparator)` places `a` strictly before `b` when the
comparator returns a negative number (a `NaN` comparator result keeps the
original order, like a zero). -/
def cmpLt (a b : List Char) : Bool :=
  match versionCmp a b with
  | some k => k < 0
  | none => false

/-- Stable insertion of one element into an already sorted list: it goes
after every element that strictly precedes it. -/
def sortInsert (x : List Char) : List (List Char) → List (List Char)
  | [] => [x]
  | y :: ys => if cmpLt y x then y :: sortInsert x ys else x :: y :: ys

/-- `Array.prototype.sort` with the comparator above.  ECMAScript requires
the sort to be stable, so for a consistent comparator the result is the
unique stable order, which stable insertion sort also produces. -/
def jsSort : List (List Char) → List (List Char)
  | [] => []
  | x :: xs => sortInsert x (jsSort xs)

/-! ### `getLatestTagVersion` (gitUtils.ts lines 42-152)

The subprocess steps appear as arguments: `isGitRepo` is the probe's
answer, `localTagsOut` the outcome of `git tag --list "@<app>/*"`, and
`remoteTagsOut` the outcome of the remote pipeline.  A JavaScript
exception from a step lands in the function's outer `catch`, which
returns `"0.0.0"`. -/

/-- The merged candidate lines that pass `isValidVersion` (the filter inside
line 88-95's merge, before deduplication). -/
def validCandidates (appName localStdout remoteStdout : String) : List (List Char) :=
  (splitNl (trimChars localStdout.data) ++ splitNl (trimChars remoteStdout.data)).filter
    (fun t => isValidVersion (String.mk t) appName)

/-- The merged, validity-filtered, deduplicated candidate list
(lines 88-95). -/
def mergedTags (appName localStdout remoteStdout : String) : List (List Char) :=
  jsSetDedup (validCandidates appName localStdout remoteStdout)

/-- The version strings surviving extraction (lines 105-117). -/
def resolvedVersions (appName localStdout remoteStdout : String) : List (List Char) :=
  ((mergedTags appName localStdout remoteStdout).filter
      (fun t => !(trimChars t).isEmpty)).filterMap (extractVersion appName)

/-- `getLatestTagVersion`. -/
def getLatestTagVersion (appName : String) (isGitRepo : Bool)
    (localTagsOut remoteTagsOut : Except String String) : String :=
  if !isGitRepo then "0.0.0"
  else
    match localTagsOut with
    | .error _ => "0.0.0"
    | .ok localStdout =>
      match remoteTagsOut with
      | .error _ => "0.0.0"
      | .ok remoteStdout =>
        if (mergedTags appName localStdout remoteStdout).isEmpty then "0.0.0"
        else
          let versions := resolvedVersions appName localStdout remoteStdout
          if versions.isEmpty then "0.0.0"
          else String.mk ((jsSort versions).headD [])

/-- stdout of the remote enumeration step
`git ls-remote --tags origin --list "@<app>/*" | awk '...' | sed '...'` as
`execAsync` observes it.  `exec` runs the string through `/bin/sh -c`, and
a pipeline's exit status is that of its last command (`sed`), so a failure
of `git ls-remote` itself produces exit 0 with empty stdout — no
exception — while on success stdout is the awk/sed-processed tag list
(taken here as the argument `processed`). -/
def remotePipelineStdout (lsRemote : Except String String) (processed : String) :
    Except String String :=
  match lsRemote with
  | .error _ => .ok ""
  | .ok _ => .ok processed

/-! ### `incrementVersion` (gitUtils.ts lines 160-186) -/

/-- The three increment classes `'major' | 'minor' | 'patch'`. -/
inductive IncType where
  | major
  | minor
  | patch
deriving DecidableEq

/-- JavaScript `n += 1` on a number-or-`NaN`. -/
def numAdd1 : Option Nat → Option Nat
  | some n => some (n + 1)
  | none => none

/-- `Array.prototype.join('.')`. -/
def jsJoinDot : List (List Char) → List Char
  | [] => []
  | [x] => x
  | x :: xs => x ++ '.' :: jsJoinDot xs

/-- `incrementVersion`: split on `'.'`, `Number` each part, throw when
there are not exactly three parts, mutate per increment class, join.  The
thrown `Error` is the `Except.error` case. -/
def incrementVersion (version : String) (ty : IncType) : Except String String :=
  let parts := (splitDot version.data).map jsNumber
  if parts.length ≠ 3 then .error ("无效的版本号格式: " ++ version)
  else
    let newParts :=
      match ty with
      | .major => [numAdd1 (parts.getD 0 none), some 0, some 0]
      | .minor => [parts.getD 0 none, numAdd1 (parts.getD 1 none), some 0]
      | .patch => [parts.getD 0 none, parts.getD 1 none, numAdd1 (parts.getD 2 none)]
    .ok (String.mk (jsJoinDot (newParts.map jsNumToString)))

/-! ### Tag mutation (gitUtils.ts lines 197-297) -/

/-- The command string `createTag` interpolates and hands to `execAsync`
(line 215): `git tag -a <tagName> <commitId> -m "<message>"`, with the
message spliced into the double-quoted segment untouched.  The identical
text is built by `createAndPushTag` in the parallel implementation. -/
def createTagCommand (appName version commitId message : String) : String :=
  "git tag -a " ++ ("@" ++ appName ++ "/" ++ version) ++ " " ++ commitId ++
    " -m \"" ++ message ++ "\""

/-- POSIX `sh -c` field splitting of a command string, for the fragment
these commands fall into: fields split on unquoted spaces and a
double-quoted segment groups literally.  Inputs using `\`, `$`, a backquote
or a single quote are outside the modelled fragment (`none`), as is an
unterminated quote.  Arguments: inside-quotes flag, whether the current
field has started, the current field (reversed), remaining input. -/
def shWordsGo (inQuote started : Bool) (acc : List Char) :
    List Char → Option (List (List Char))
  | [] =>
    if inQuote then none
    else if started then some [acc.reverse] else some []
  | c :: rest =>
    if c = '\\' || c = '$' || c = '\'' || c = '`' then none
    else if c = '"' then shWordsGo (!inQuote) true acc rest
    else if c = ' ' && !inQuote then
      if started then (shWordsGo false false [] rest).map (fun ws => acc.reverse :: ws)
      else shWordsGo false false [] rest
    else shWordsGo inQuote true (c :: acc) rest

/-- The argument vector `/bin/sh -c` derives from a command string. -/
def shWords (cmd : String) : Option (List String) :=
  (shWordsGo false false [] cmd.data).map (fun ws => ws.map String.mk)

/-- `createTag` (line 197) over the outcomes of its steps: probe says not a
repository → `false` without running the command; the tag command throwing
→ `false`; otherwise `true`. -/
def createTag (isGitRepo : Bool) (tagCmdOut : Except String String) : Bool :=
  if !isGitRepo then false
  else
    match tagCmdOut with
    | .ok _ => true
    | .error _ => false

/-- `pushTag` (line 233) over the outcome of `git push origin <tagName>`:
success carries stdout (or `'推送成功'` when stdout is empty), failure is
caught and returned as a value. -/
def pushTag (pushCmdOut : Except String String) : Bool × String :=
  match pushCmdOut with
  | .ok stdout => (true, if stdout.isEmpty then "推送成功" else stdout)
  | .error e => (false, e)

/-- `createAndPushTag` (line 269): run `createTag`; if it failed return
`false` without pushing, otherwise run `pushTag` and return its success
flag.  The second component records whether the push step ran — the
observable the spec's test property is stated over. -/
def createAndPushTag (createSuccess : Bool) (pushCmdOut : Except String String) :
    Bool × Bool :=
  if !createSuccess then (false, false)
  else ((pushTag pushCmdOut).1, true)

/-- `getLatestCommitId` (line 304): not a repository → throw; the
`git rev-parse HEAD` outcome is returned trimmed on success; the `catch`
logs and rethrows, so every failure propagates to the caller. -/
def getLatestCommitId (isGitRepo : Bool) (revParseOut : Except String String) :
    Except String String :=
  if !isGitRepo then .error "当前目录不是git仓库"
  else
    match revParseOut with
    | .error e => .error e
    | .ok stdout => .ok (String.mk (trimChars stdout.data))

/-! ### Vocabulary for the statements and proofs -/

/-- A character with no regular-expression significance: splicing it into
pattern text denotes itself. -/
def plainChar (c : Char) : Bool :=
  !(c = '\\') && !(c = '.') && !specialChar c

/-- The items a run of plain literal characters parses to. -/
def litItems (l : List Char) : List Item :=
  l.map (fun c => Item.once (Atom.ch c))

/-- Strip an expected literal block off the front: `some rest` when `cs`
starts with `l`. -/
def stripPre : List Char → List Char → Option (List Char)
  | [], cs => some cs
  | _ :: _, [] => none
  | a :: l, c :: cs => if a = c then stripPre l cs else none

/-- The items the version half `\d+\.\d+\.\d+` parses to. -/
def tripleItems : List Item :=
  [.plus .digit, .once (.ch '.'), .plus .digit, .once (.ch '.'), .plus .digit]

/-- The character-level shape `\d+\.\d+\.\d+`: three nonempty digit runs
separated by dots. -/
def TripleShape (v : List Char) : Prop :=
  ∃ a b c : List Char, v = a ++ '.' :: (b ++ '.' :: c) ∧
    (a ≠ [] ∧ a.all Char.isDigit) ∧ (b ≠ [] ∧ b.all Char.isDigit) ∧
    (c ≠ [] ∧ c.all Char.isDigit)

/-- Lexicographic strict order on version triples. -/
def lexLt (t u : Nat × Nat × Nat) : Prop :=
  t.1 < u.1 ∨ (t.1 = u.1 ∧ (t.2.1 < u.2.1 ∨ (t.2.1 = u.2.1 ∧ t.2.2 < u.2.2)))

/-- Lexicographic order on version triples. -/
def lexLe (t u : Nat × Nat × Nat) : Prop :=
  t.1 < u.1 ∨ (t.1 = u.1 ∧ (t.2.1 < u.2.1 ∨ (t.2.1 = u.2.1 ∧ t.2.2 ≤ u.2.2)))

/-- The triple of a version string, defaulting for the (never exercised)
non-triple case. -/
def tripleOf (v : List Char) : Nat × Nat × Nat :=
  (versionTriple v).getD (0, 0, 0)

/-- Canonical text of a version triple, `"<major>.<minor>.<patch>"`. -/
def tripleString (a b c : Nat) : String :=
  String.mk (natRepr a ++ '.' :: (natRepr b ++ '.' :: natRepr c))

/-! ## Lemmas about the matcher -/

theorem tryMatch_lit_append (l : List Char) (rest : List Item) (cs : List Char) :
    tryMatch (litItems l ++ rest) cs =
      match stripPre l cs with
      | some cs2 => tryMatch rest cs2
      | none => none := by
  induction l generalizing cs with
  | nil => simp [litItems, stripPre]
  | cons a l ih =>
    cases cs with
    | nil => simp [litItems, stripPre, tryMatch]
    | cons c cs =>
      by_cases h : a = c
      · simpa [litItems, stripPre, tryMatch, atomMatch, h] using ih cs
      · simp [litItems, stripPre, tryMatch, atomMatch, h]

theorem stripPre_eq_some {l cs cs2 : List Char} :
    stripPre l cs = some cs2 ↔ cs = l ++ cs2 := by
  induction l generalizing cs with
  | nil => simp [stripPre, eq_comm]
  | cons a l ih =>
    cases cs with
    | nil => simp [stripPre]
    | cons c cs =>
      by_cases h : a = c
      · subst h
        simp [stripPre, ih]
      · simp only [stripPre, if_neg h, List.cons_append]
        constructor
        · intro hx
          exact absurd hx (by simp)
        · intro hx
          exact absurd (List.cons.injEq .. ▸ hx).1 fun hh => h hh.symm

theorem tryMatch_once_isSome (a : Atom) (rest : List Item) (cs : List Char) :
    (tryMatch (.once a :: rest) cs).isSome ↔
      ∃ c cs2, cs = c :: cs2 ∧ atomMatch a c = true ∧ (tryMatch rest cs2).isSome := by
  cases cs with
  | nil => simp [tryMatch]
  | cons c cs =>
    by_cases h : atomMatch a c
    · simp only [tryMatch, if_pos h]
      constructor
      · intro hm
        exact ⟨c, cs, rfl, h, hm⟩
      · rintro ⟨c1, cs2, heq, -, hm⟩
        cases heq
        exact hm
    · simp only [tryMatch, if_neg h, Option.isSome_none, Bool.false_eq_true, false_iff]
      rintro ⟨c1, cs2, heq, ha, -⟩
      cases heq
      exact h ha

theorem tryMatch_plus_digit_isSome (rest : List Item) (cs : List Char) :
    (tryMatch (.plus .digit :: rest) cs).isSome ↔
      ∃ d cs2, cs = d ++ cs2 ∧ d ≠ [] ∧ d.all Char.isDigit ∧
        (tryMatch rest cs2).isSome := by
  induction cs with
  | nil =>
    simp only [tryMatch, Option.isSome_none, Bool.false_eq_true, false_iff]
    rintro ⟨d, cs2, h, hd, -⟩
    cases d with
    | nil => exact hd rfl
    | cons d0 d => simp at h
  | cons c cs ih =>
    by_cases hc : c.isDigit
    · have step : (tryMatch (.plus Atom.digit :: rest) (c :: cs)).isSome ↔
          (tryMatch (.plus Atom.digit :: rest) cs).isSome ∨ (tryMatch rest cs).isSome := by
        simp only [tryMatch, atomMatch, hc, if_true]
        cases tryMatch (.plus Atom.digit :: rest) cs <;> simp
      rw [step, ih]
      constructor
      · rintro (⟨d, cs2, hcs, hd, hdig, hm⟩ | hm)
        · exact ⟨c :: d, cs2, by simp [hcs], by simp, by simp [hc, hdig], hm⟩
        · exact ⟨[c], cs, by simp, by simp, by simp [hc], hm⟩
      · rintro ⟨d, cs2, hcs, hd, hdig, hm⟩
        cases d with
        | nil => exact absurd rfl hd
        | cons d0 d =>
          rw [List.cons_append] at hcs
          injection hcs with h1 h2
          cases d with
          | nil =>
            right
            rw [h2]
            simpa using hm
          | cons d1 d =>
            left
            refine ⟨d1 :: d, cs2, h2, by simp, ?_, hm⟩
            simp only [List.all_cons, Bool.and_eq_true] at hdig
            simp [hdig.2]
    · simp only [tryMatch, atomMatch, hc, if_false, Option.isSome_none,
        Bool.false_eq_true, false_iff]
      rintro ⟨d, cs2, hcs, hd, hdig, -⟩
      cases d with
      | nil => exact hd rfl
      | cons d0 d =>
        rw [List.cons_append] at hcs
        injection hcs with h1 h2
        simp only [List.all_cons, Bool.and_eq_true] at hdig
        rw [← h1] at hdig
        exact absurd hdig.1 (by simp [hc])

theorem tryMatch_anchorEnd_isSome (cs : List Char) :
    (tryMatch [.anchorEnd] cs).isSome ↔ cs = [] := by
  cases cs <;> simp [tryMatch]

theorem tryMatch_triple_isSome (cs : List Char) :
    (tryMatch (tripleItems ++ [.anchorEnd]) cs).isSome ↔ TripleShape cs := by
  show (tryMatch
      (.plus .digit :: .once (.ch '.') :: .plus .digit :: .once (.ch '.') ::
        .plus .digit :: [.anchorEnd]) cs).isSome ↔ _
  rw [tryMatch_plus_digit_isSome]
  constructor
  · rintro ⟨a, cs2, rfl, ha, hadig, hm⟩
    rw [tryMatch_once_isSome] at hm
    obtain ⟨c1, cs3, rfl, hc1, hm⟩ := hm
    rw [show atomMatch (.ch '.') c1 = decide ('.' = c1) from rfl] at hc1
    have hc1' : c1 = '.' := (of_decide_eq_true hc1).symm
    subst hc1'
    rw [tryMatch_plus_digit_isSome] at hm
    obtain ⟨b, cs4, rfl, hb, hbdig, hm⟩ := hm
    rw [tryMatch_once_isSome] at hm
    obtain ⟨c2, cs5, rfl, hc2, hm⟩ := hm
    rw [show atomMatch (.ch '.') c2 = decide ('.' = c2) from rfl] at hc2
    have hc2' : c2 = '.' := (of_decide_eq_true hc2).symm
    subst hc2'
    rw [tryMatch_plus_digit_isSome] at hm
    obtain ⟨c, cs6, rfl, hc, hcdig, hm⟩ := hm
    rw [tryMatch_anchorEnd_isSome] at hm
    subst hm
    exact ⟨a, b, c, by simp, ⟨ha, hadig⟩, ⟨hb, hbdig⟩, ⟨hc, hcdig⟩⟩
  · rintro ⟨a, b, c, rfl, ⟨ha, hadig⟩, ⟨hb, hbdig⟩, ⟨hc, hcdig⟩⟩
    refine ⟨a, '.' :: (b ++ '.' :: c), rfl, ha, hadig, ?_⟩
    rw [tryMatch_once_isSome]
    refine ⟨'.', b ++ '.' :: c, rfl, by simp [atomMatch], ?_⟩
    rw [tryMatch_plus_digit_isSome]
    refine ⟨b, '.' :: c, rfl, hb, hbdig, ?_⟩
    rw [tryMatch_once_isSome]
    refine ⟨'.', c, rfl, by simp [atomMatch], ?_⟩
    rw [tryMatch_plus_digit_isSome]
    refine ⟨c, [], by simp, hc, hcdig, ?_⟩
    rw [tryMatch_anchorEnd_isSome]

/-! ## Lemmas about the pattern parser -/

theorem parseItems_plain_cons (c : Char) (hc : plainChar c = true) (xs : List Char)
    (hx : xs.head? ≠ some '+') :
    parseItems (c :: xs) = (parseItems xs).map (fun l => .once (.ch c) :: l) := by
  simp only [plainChar, Bool.and_eq_true, Bool.not_eq_eq_eq_not, Bool.not_true,
    decide_eq_false_iff_not] at hc
  obtain ⟨⟨hbs, hdot⟩, hspec⟩ := hc
  have hps : plainAtom c = some (.ch c) := by
    simp [plainAtom, hbs, hdot, hspec]
  rw [parseItems.eq_def]
  split
  all_goals simp_all

theorem plainChar_ne_plus {c : Char} (hc : plainChar c = true) : c ≠ '+' := by
  intro h
  rw [h] at hc
  exact absurd hc (by decide)

theorem parseItems_lit_append (l xs : List Char) (hl : ∀ c ∈ l, plainChar c = true)
    (hx : xs.head? ≠ some '+') :
    parseItems (l ++ xs) = (parseItems xs).map (fun items => litItems l ++ items) := by
  induction l with
  | nil =>
    simp only [List.nil_append, litItems, List.map_nil]
    cases parseItems xs <;> simp
  | cons c l ih =>
    have hc := hl c (by simp)
    have hl2 : ∀ a ∈ l, plainChar a = true := fun a ha => hl a (by simp [ha])
    have hhead : (l ++ xs).head? ≠ some '+' := by
      cases l with
      | nil => simpa using hx
      | cons b bs =>
        have hb := hl b (by simp)
        simp only [List.cons_append, List.head?_cons, ne_eq, Option.some.injEq]
        exact plainChar_ne_plus hb
    rw [List.cons_append, parseItems_plain_cons c hc _ hhead, ih hl2, Option.map_map]
    cases parseItems xs <;> simp [litItems]

theorem parseItems_versionTail : parseItems versionPatternTail = some tripleItems := by
  rfl

theorem parseAnchored_validation (N : String) :
    parseAnchored (validationPattern N) =
      (parseItems ('@' :: N.data ++ '/' :: versionPatternTail)).map
        (fun l => l ++ [.anchorEnd]) := by
  unfold validationPattern parseAnchored
  simp only [List.getLast?_concat, List.dropLast_concat, if_pos]

theorem isValidVersion_plain_iff (N v : String)
    (hN : ∀ c ∈ N.data, plainChar c = true) :
    isValidVersion v N = true ↔
      ∃ t, v.data = '@' :: N.data ++ '/' :: t ∧ TripleShape t := by
  have hlit : ∀ c ∈ '@' :: N.data ++ ['/'], plainChar c = true := by
    intro c hcm
    rcases List.mem_cons.mp hcm with h | h
    · subst h
      decide
    · rcases List.mem_append.mp h with h | h
      · exact hN c h
      · have hc : c = '/' := by simpa using h
        subst hc
        decide
  have hbody : ('@' :: N.data ++ '/' :: versionPatternTail) =
      ('@' :: N.data ++ ['/']) ++ versionPatternTail := by
    simp
  have hparse : parseItems ('@' :: N.data ++ '/' :: versionPatternTail) =
      some (litItems ('@' :: N.data ++ ['/']) ++ tripleItems) := by
    rw [hbody, parseItems_lit_append _ _ hlit (by simp [versionPatternTail]),
      parseItems_versionTail]
    rfl
  unfold isValidVersion regexTestAnchored
  rw [parseAnchored_validation, hparse]
  simp only [Option.map_some']
  rw [List.append_assoc, tryMatch_lit_append]
  constructor
  · intro hm
    split at hm
    · rename_i cs2 heq
      rw [stripPre_eq_some] at heq
      rw [tryMatch_triple_isSome] at hm
      exact ⟨cs2, by simpa using heq, hm⟩
    · simp at hm
  · rintro ⟨t, ht, hshape⟩
    have hs : stripPre ('@' :: N.data ++ ['/']) v.data = some t := by
      rw [stripPre_eq_some]
      simpa using ht
    rw [hs]
    rw [tryMatch_triple_isSome]
    exact hshape


/-! ## Lemmas about splitting, numbers and rendering -/

theorem lexLe_refl (t : Nat × Nat × Nat) : lexLe t t := by
  simp [lexLe]

theorem lexLe_trans {a b c : Nat × Nat × Nat} (h1 : lexLe a b) (h2 : lexLe b c) :
    lexLe a c := by
  simp only [lexLe] at *
  omega

theorem lexLe_of_lexLt {a b : Nat × Nat × Nat} (h : lexLt a b) : lexLe a b := by
  simp only [lexLt, lexLe] at *
  omega

theorem lexLe_of_not_lexLt {a b : Nat × Nat × Nat} (h : ¬ lexLt a b) : lexLe b a := by
  simp only [lexLt, lexLe] at *
  omega

theorem splitDotCore_no_dot (a : List Char) (ha : ∀ c ∈ a, c ≠ '.') :
    splitDotCore a = (a, []) := by
  induction a with
  | nil => rfl
  | cons c a ih =>
    have hc : c ≠ '.' := ha c (by simp)
    have ha2 : ∀ x ∈ a, x ≠ '.' := fun x hx => ha x (by simp [hx])
    simp [splitDotCore, hc, ih ha2]

theorem splitDotCore_append_dot (a rest : List Char) (ha : ∀ c ∈ a, c ≠ '.') :
    splitDotCore (a ++ '.' :: rest) =
      (a, (splitDotCore rest).1 :: (splitDotCore rest).2) := by
  induction a with
  | nil => simp [splitDotCore]
  | cons c a ih =>
    have hc : c ≠ '.' := ha c (by simp)
    have ha2 : ∀ x ∈ a, x ≠ '.' := fun x hx => ha x (by simp [hx])
    simp [splitDotCore, hc, ih ha2]

theorem splitDot_triple (a b c : List Char) (ha : ∀ x ∈ a, x ≠ '.')
    (hb : ∀ x ∈ b, x ≠ '.') (hc : ∀ x ∈ c, x ≠ '.') :
    splitDot (a ++ '.' :: (b ++ '.' :: c)) = [a, b, c] := by
  unfold splitDot
  rw [splitDotCore_append_dot a _ ha, splitDotCore_append_dot b _ hb,
    splitDotCore_no_dot c hc]

theorem digit_ne_dot {c : Char} (h : c.isDigit = true) : c ≠ '.' := by
  intro heq
  rw [heq] at h
  exact absurd h (by decide)

theorem digit_ne_newline {c : Char} (h : c.isDigit = true) : c ≠ '\n' := by
  intro heq
  rw [heq] at h
  exact absurd h (by decide)

theorem digit_not_whitespace {c : Char} (h : c.isDigit = true) :
    c.isWhitespace = false := by
  by_contra hw
  rw [Bool.not_eq_false] at hw
  have h4 : c = ' ' ∨ c = '\t' ∨ c = '\r' ∨ c = '\n' := by
    simpa [Char.isWhitespace, or_assoc] using hw
  rcases h4 with rfl | rfl | rfl | rfl <;> exact absurd h (by decide)

theorem versionTriple_of_shape {v : List Char} (h : TripleShape v) :
    ∃ a b c : List Char, v = a ++ '.' :: (b ++ '.' :: c) ∧
      versionTriple v = some (natOfDigits a, natOfDigits b, natOfDigits c) := by
  obtain ⟨a, b, c, rfl, ⟨-, hadig⟩, ⟨-, hbdig⟩, ⟨-, hcdig⟩⟩ := h
  refine ⟨a, b, c, rfl, ?_⟩
  have hsplit := splitDot_triple a b c
    (fun x hx => digit_ne_dot (by exact List.all_eq_true.mp hadig x hx))
    (fun x hx => digit_ne_dot (by exact List.all_eq_true.mp hbdig x hx))
    (fun x hx => digit_ne_dot (by exact List.all_eq_true.mp hcdig x hx))
  unfold versionTriple versionParts
  rw [hsplit]
  simp [jsNumber, hadig, hbdig, hcdig]

/-! ## Number rendering round-trip -/

theorem natDigitsAux_eq (fuel n : Nat) (h : n ≤ fuel) :
    natDigitsAux fuel n = Nat.digits 10 n := by
  induction fuel generalizing n with
  | zero =>
    have hn : n = 0 := Nat.le_zero.mp h
    subst hn
    simp [natDigitsAux]
  | succ fuel ih =>
    by_cases hn : n = 0
    · subst hn
      simp [natDigitsAux]
    · rw [natDigitsAux, if_neg hn,
        Nat.digits_def' (by norm_num : (1 : Nat) < 10) (Nat.pos_of_ne_zero hn)]
      congr 1
      refine ih _ ?_
      have := Nat.div_lt_self (Nat.pos_of_ne_zero hn) (by norm_num : 1 < 10)
      omega

theorem natDigitsLSB_eq (n : Nat) : natDigitsLSB n = Nat.digits 10 n :=
  natDigitsAux_eq n n le_rfl

theorem char_digit_of_lt {d : Nat} (h : d < 10) :
    (Char.ofNat (48 + d)).isDigit = true := by
  interval_cases d <;> decide

theorem char_toNat_of_lt {d : Nat} (h : d < 10) :
    (Char.ofNat (48 + d)).toNat = 48 + d := by
  interval_cases d <;> decide

theorem natRepr_all_digits (n : Nat) : (natRepr n).all Char.isDigit = true := by
  unfold natRepr
  by_cases hn : n = 0
  · subst hn
    decide
  · rw [if_neg hn, List.all_eq_true]
    intro c hcmem
    rw [List.mem_reverse] at hcmem
    obtain ⟨d, hd, rfl⟩ := List.mem_map.mp hcmem
    have hd10 : d < 10 := Nat.digits_lt_base (by norm_num) (natDigitsLSB_eq n ▸ hd)
    exact char_digit_of_lt hd10

theorem foldr_digits_val (L : List Nat) (hL : ∀ d ∈ L, d < 10) :
    L.foldr (fun d acc => acc * 10 + ((Char.ofNat (48 + d)).toNat - 48)) 0 =
      Nat.ofDigits 10 L := by
  induction L with
  | nil => simp [Nat.ofDigits]
  | cons d L ih =>
    have hd : d < 10 := hL d (by simp)
    have hL2 : ∀ x ∈ L, x < 10 := fun x hx => hL x (by simp [hx])
    simp only [List.foldr, ih hL2, Nat.ofDigits_cons, char_toNat_of_lt hd]
    omega

theorem natOfDigits_natRepr (n : Nat) : natOfDigits (natRepr n) = n := by
  unfold natRepr
  by_cases hn : n = 0
  · subst hn
    decide
  · rw [if_neg hn]
    unfold natOfDigits
    rw [List.foldl_reverse, List.foldr_map, natDigitsLSB_eq,
      foldr_digits_val _ (fun d hd => Nat.digits_lt_base (by norm_num) hd)]
    exact Nat.ofDigits_digits 10 n

theorem jsNumber_natRepr (n : Nat) : jsNumber (natRepr n) = some n := by
  unfold jsNumber
  rw [if_pos (natRepr_all_digits n), natOfDigits_natRepr]

theorem natRepr_ne_nil (n : Nat) : natRepr n ≠ [] := by
  unfold natRepr
  by_cases hn : n = 0
  · subst hn
    decide
  · rw [if_neg hn]
    simp only [ne_eq, List.reverse_eq_nil_iff, List.map_eq_nil_iff]
    rw [natDigitsLSB_eq]
    exact Nat.digits_ne_nil_iff_ne_zero.mpr hn

/-! ## The comparator on version triples -/

theorem versionParts_of_triple {v : List Char} {t : Nat × Nat × Nat}
    (h : versionTriple v = some t) :
    versionParts v = [some t.1, some t.2.1, some t.2.2] := by
  unfold versionTriple at h
  split at h
  · rename_i heq
    injection h with h2
    subst h2
    exact heq
  · exact absurd h (by simp)

theorem versionCmp_of_triples {a b : List Char} {ta tb : Nat × Nat × Nat}
    (ha : versionTriple a = some ta) (hb : versionTriple b = some tb) :
    versionCmp a b = some (
      if ta.1 ≠ tb.1 then (tb.1 : Int) - ta.1
      else if ta.2.1 ≠ tb.2.1 then (tb.2.1 : Int) - ta.2.1
      else (tb.2.2 : Int) - ta.2.2) := by
  unfold versionCmp
  rw [versionParts_of_triple ha, versionParts_of_triple hb]
  rcases ta with ⟨a1, a2, a3⟩
  rcases tb with ⟨b1, b2, b3⟩
  by_cases h1 : a1 = b1 <;> by_cases h2 : a2 = b2 <;>
    simp [numNe, numSub, h1, h2]

theorem cmpLt_iff {a b : List Char} {ta tb : Nat × Nat × Nat}
    (ha : versionTriple a = some ta) (hb : versionTriple b = some tb) :
    cmpLt a b = true ↔ lexLt tb ta := by
  unfold cmpLt
  rw [versionCmp_of_triples ha hb]
  rcases ta with ⟨a1, a2, a3⟩
  rcases tb with ⟨b1, b2, b3⟩
  simp only [lexLt, decide_eq_true_eq]
  split_ifs with h1 h2 <;> simp <;> omega



/-! ## The sort: membership and head maximality -/

theorem versionTriple_eq_some_tripleOf {v : List Char}
    (h : (versionTriple v).isSome = true) :
    versionTriple v = some (tripleOf v) := by
  unfold tripleOf
  cases hv : versionTriple v with
  | none => rw [hv] at h; simp at h
  | some t => simp

theorem sortInsert_mem (x : List Char) (l : List (List Char)) (y : List Char) :
    y ∈ sortInsert x l ↔ y = x ∨ y ∈ l := by
  induction l with
  | nil => simp [sortInsert]
  | cons z l ih =>
    unfold sortInsert
    split_ifs with h
    · simp only [List.mem_cons, ih]
      tauto
    · simp [List.mem_cons]

theorem jsSort_mem (l : List (List Char)) (y : List Char) :
    y ∈ jsSort l ↔ y ∈ l := by
  induction l with
  | nil => simp [jsSort]
  | cons x l ih => simp [jsSort, sortInsert_mem, ih]

theorem jsSort_head_max (l : List (List Char))
    (hl : ∀ v ∈ l, (versionTriple v).isSome = true) (hne : l ≠ []) :
    ∃ h t, jsSort l = h :: t ∧ h ∈ l ∧
      ∀ w ∈ l, lexLe (tripleOf w) (tripleOf h) := by
  induction l with
  | nil => exact absurd rfl hne
  | cons x xs ih =>
    have hx := hl x (by simp)
    by_cases hxs : xs = []
    · subst hxs
      refine ⟨x, [], by simp [jsSort, sortInsert], by simp, ?_⟩
      intro w hw
      rw [List.mem_singleton] at hw
      subst hw
      exact lexLe_refl _
    · obtain ⟨h, t, hsort, hmem, hmax⟩ := ih (fun v hv => hl v (by simp [hv])) hxs
      have hh := hl h (by simp [hmem])
      by_cases hc : cmpLt h x = true
      · refine ⟨h, sortInsert x t, by simp [jsSort, hsort, sortInsert, hc],
          by simp [hmem], ?_⟩
        intro w hw
        rcases List.mem_cons.mp hw with rfl | hw2
        · exact lexLe_of_lexLt ((cmpLt_iff (versionTriple_eq_some_tripleOf hh)
            (versionTriple_eq_some_tripleOf hx)).mp hc)
        · exact hmax w hw2
      · refine ⟨x, h :: t, by simp [jsSort, hsort, sortInsert, hc], by simp, ?_⟩
        intro w hw
        rcases List.mem_cons.mp hw with rfl | hw2
        · exact lexLe_refl _
        · have h1 : lexLe (tripleOf w) (tripleOf h) := hmax w hw2
          have h2 : ¬ lexLt (tripleOf x) (tripleOf h) := by
            intro hlt
            exact hc ((cmpLt_iff (versionTriple_eq_some_tripleOf hh)
              (versionTriple_eq_some_tripleOf hx)).mpr hlt)
          exact lexLe_trans h1 (lexLe_of_not_lexLt h2)

/-! ## Deduplication, trim and extraction -/

theorem dedupGo_mem (l : List (List Char)) (seen : List (List Char)) (y : List Char) :
    y ∈ dedupGo seen l ↔ y ∈ l ∧ y ∉ seen := by
  induction l generalizing seen with
  | nil => simp [dedupGo]
  | cons x xs ih =>
    unfold dedupGo
    split_ifs with h
    · rw [ih]
      constructor
      · rintro ⟨h1, h2⟩
        exact ⟨by simp [h1], h2⟩
      · rintro ⟨h1, h2⟩
        rcases List.mem_cons.mp h1 with rfl | h3
        · exact absurd h h2
        · exact ⟨h3, h2⟩
    · rw [List.mem_cons, ih]
      by_cases hyx : y = x
      · subst hyx
        simp [h]
      · simp [hyx]

theorem jsSetDedup_mem (l : List (List Char)) (y : List Char) :
    y ∈ jsSetDedup l ↔ y ∈ l := by
  unfold jsSetDedup
  rw [dedupGo_mem]
  simp

theorem jsSetDedup_ne_nil {l : List (List Char)} (h : l ≠ []) : jsSetDedup l ≠ [] := by
  cases l with
  | nil => exact absurd rfl h
  | cons x xs =>
    intro hd
    have hx : x ∈ jsSetDedup (x :: xs) := (jsSetDedup_mem _ _).mpr (by simp)
    rw [hd] at hx
    simp at hx

theorem takeWhile_all {p : Char → Bool} {l : List Char} (h : ∀ c ∈ l, p c = true) :
    l.takeWhile p = l := by
  induction l with
  | nil => rfl
  | cons c l ih =>
    rw [List.takeWhile_cons, if_pos (h c (by simp)), ih (fun x hx => h x (by simp [hx]))]

theorem trimChars_sandwich (x y : Char) (mid : List Char)
    (hx : x.isWhitespace = false) (hy : y.isWhitespace = false) :
    trimChars ((x :: mid) ++ [y]) = (x :: mid) ++ [y] := by
  unfold trimChars
  have h1 : List.dropWhile Char.isWhitespace ((x :: mid) ++ [y]) = (x :: mid) ++ [y] := by
    rw [List.cons_append, List.dropWhile_cons]
    simp [hx]
  rw [h1, List.reverse_append]
  simp only [List.reverse_cons, List.reverse_nil, List.nil_append, List.singleton_append]
  rw [List.dropWhile_cons, if_neg (by simp [hy])]
  simp

theorem tripleShape_no_newline {v : List Char} (h : TripleShape v) :
    ∀ c ∈ v, c ≠ '\n' := by
  obtain ⟨a, b, c, rfl, ⟨-, ha⟩, ⟨-, hb⟩, ⟨-, hc⟩⟩ := h
  intro x hx
  rcases List.mem_append.mp hx with h1 | h1
  · exact digit_ne_newline (List.all_eq_true.mp ha x h1)
  · rcases List.mem_cons.mp h1 with rfl | h1
    · decide
    · rcases List.mem_append.mp h1 with h2 | h2
      · exact digit_ne_newline (List.all_eq_true.mp hb x h2)
      · rcases List.mem_cons.mp h2 with rfl | h2
        · decide
        · exact digit_ne_newline (List.all_eq_true.mp hc x h2)

theorem atSlash_plain (N : String) (hN : ∀ c ∈ N.data, plainChar c = true) :
    ∀ c ∈ '@' :: N.data ++ ['/'], plainChar c = true := by
  intro c hcm
  rcases List.mem_cons.mp hcm with h | h
  · subst h
    decide
  · rcases List.mem_append.mp h with h | h
    · exact hN c h
    · have hc : c = '/' := by simpa using h
      subst hc
      decide

theorem extractVersion_plain (N : String) (hN : ∀ c ∈ N.data, plainChar c = true)
    (v : List Char) (hv : ∀ c ∈ v, c ≠ '\n') :
    extractVersion N ('@' :: N.data ++ '/' :: v) = some v := by
  unfold extractVersion
  have hp : parseItems ('@' :: N.data ++ ['/']) =
      some (litItems ('@' :: N.data ++ ['/'])) := by
    have h0 := parseItems_lit_append ('@' :: N.data ++ ['/']) [] (atSlash_plain N hN)
      (by simp)
    rw [show parseItems [] = some [] from rfl] at h0
    simpa using h0
  rw [hp]
  have hm : tryMatch (litItems ('@' :: N.data ++ ['/'])) ('@' :: (N.data ++ '/' :: v)) =
      some v := by
    have h1 : litItems ('@' :: N.data ++ ['/']) =
        litItems ('@' :: N.data ++ ['/']) ++ [] := by simp
    rw [h1, tryMatch_lit_append]
    have h2 : stripPre ('@' :: N.data ++ ['/']) ('@' :: (N.data ++ '/' :: v)) = some v := by
      rw [stripPre_eq_some]
      simp
    rw [h2]
    simp [tryMatch]
  show (match searchFrom (litItems ('@' :: N.data ++ ['/']))
      ('@' :: N.data ++ '/' :: v) with
    | none => none
    | some rest => some (rest.takeWhile (fun c => c ≠ '\n'))) = some v
  rw [show ('@' :: N.data ++ '/' :: v : List Char) = '@' :: (N.data ++ '/' :: v) from rfl,
    searchFrom, hm]
  simp only
  rw [takeWhile_all (fun c hc => by simp [hv c hc])]


/-! ## Unfolding `getLatestTagVersion` and the resolution maximum -/

theorem getLatestTagVersion_ok_ok (N ls rs : String) :
    getLatestTagVersion N true (.ok ls) (.ok rs) =
      if (mergedTags N ls rs).isEmpty then "0.0.0"
      else if (resolvedVersions N ls rs).isEmpty then "0.0.0"
      else String.mk ((jsSort (resolvedVersions N ls rs)).headD []) := by
  rfl

theorem valid_tag_unpack (N : String) (hN : ∀ c ∈ N.data, plainChar c = true)
    (t : List Char) (hv : isValidVersion (String.mk t) N = true) :
    ∃ v, extractVersion N t = some v ∧ TripleShape v ∧
      (trimChars t).isEmpty = false ∧ (versionTriple v).isSome = true := by
  obtain ⟨v, ht, hshape⟩ := (isValidVersion_plain_iff N (String.mk t) hN).mp hv
  have ht2 : t = '@' :: N.data ++ '/' :: v := ht
  refine ⟨v, ?_, hshape, ?_, ?_⟩
  · rw [ht2]
    exact extractVersion_plain N hN v (tripleShape_no_newline hshape)
  · obtain ⟨a, b, c, hveq, ⟨hane, hadig⟩, ⟨hbne, hbdig⟩, ⟨hcne, hcdig⟩⟩ := hshape
    rcases List.eq_nil_or_concat c with rfl | ⟨c0, cl, rfl⟩
    · exact absurd rfl hcne
    · have hcl : cl.isDigit = true := List.all_eq_true.mp hcdig cl (by simp)
      have htag : t = ('@' :: (N.data ++ '/' :: (a ++ '.' :: (b ++ '.' :: c0)))) ++ [cl] := by
        rw [ht2, hveq]
        simp
      rw [htag, trimChars_sandwich '@' cl _ (by decide) (digit_not_whitespace hcl)]
      simp
  · obtain ⟨a, b, c, hveq, hvt⟩ := versionTriple_of_shape hshape
    rw [hvt]
    rfl

theorem resolve_max (N : String) (hN : ∀ c ∈ N.data, plainChar c = true)
    (ls rs : String) (hne : validCandidates N ls rs ≠ []) :
    ∃ best, getLatestTagVersion N true (.ok ls) (.ok rs) = String.mk best ∧
      (∃ t ∈ validCandidates N ls rs, extractVersion N t = some best) ∧
      ∀ t ∈ validCandidates N ls rs, ∀ v, extractVersion N t = some v →
        lexLe (tripleOf v) (tripleOf best) := by
  have hmerged : mergedTags N ls rs = jsSetDedup (validCandidates N ls rs) := rfl
  have hvalid : ∀ t ∈ mergedTags N ls rs, isValidVersion (String.mk t) N = true := by
    intro t ht
    rw [hmerged, jsSetDedup_mem] at ht
    exact (List.mem_filter.mp ht).2
  have hMnil : mergedTags N ls rs ≠ [] := by
    rw [hmerged]
    exact jsSetDedup_ne_nil hne
  have hMne : (mergedTags N ls rs).isEmpty = false := by
    cases h : mergedTags N ls rs with
    | nil => exact absurd h hMnil
    | cons a l => rfl
  have htrim : (mergedTags N ls rs).filter (fun t => !(trimChars t).isEmpty) =
      mergedTags N ls rs := by
    apply List.filter_eq_self.mpr
    intro t ht
    obtain ⟨v, -, -, htm, -⟩ := valid_tag_unpack N hN t (hvalid t ht)
    simp [htm]
  have hres : resolvedVersions N ls rs =
      (mergedTags N ls rs).filterMap (extractVersion N) := by
    unfold resolvedVersions
    rw [htrim]
  have hVnil : resolvedVersions N ls rs ≠ [] := by
    rw [hres]
    obtain ⟨t0, l0, hM⟩ : ∃ t0 l0, mergedTags N ls rs = t0 :: l0 := by
      cases h : mergedTags N ls rs with
      | nil => exact absurd h hMnil
      | cons a l => exact ⟨a, l, rfl⟩
    have ht0 : t0 ∈ mergedTags N ls rs := by
      rw [hM]
      simp
    obtain ⟨v0, hv0, -, -, -⟩ := valid_tag_unpack N hN t0 (hvalid t0 ht0)
    intro hnil
    have hmemv : v0 ∈ (mergedTags N ls rs).filterMap (extractVersion N) :=
      List.mem_filterMap.mpr ⟨t0, ht0, hv0⟩
    rw [hnil] at hmemv
    simp at hmemv
  have hVne : (resolvedVersions N ls rs).isEmpty = false := by
    cases h : resolvedVersions N ls rs with
    | nil => exact absurd h hVnil
    | cons a l => rfl
  have hallsome : ∀ v ∈ resolvedVersions N ls rs, (versionTriple v).isSome = true := by
    intro v hv
    rw [hres] at hv
    obtain ⟨t, htm, hex⟩ := List.mem_filterMap.mp hv
    obtain ⟨v2, hv2, -, -, hsome⟩ := valid_tag_unpack N hN t (hvalid t htm)
    rw [hv2] at hex
    injection hex with hveq
    rw [← hveq]
    exact hsome
  obtain ⟨best, tl, hsorted, hbestmem, hbestmax⟩ := jsSort_head_max _ hallsome hVnil
  refine ⟨best, ?_, ?_, ?_⟩
  · rw [getLatestTagVersion_ok_ok, if_neg (by simp [hMne]), if_neg (by simp [hVne]),
      hsorted]
    rfl
  · have hbm := hbestmem
    rw [hres] at hbm
    obtain ⟨t, htm, hex⟩ := List.mem_filterMap.mp hbm
    refine ⟨t, ?_, hex⟩
    rw [hmerged, jsSetDedup_mem] at htm
    exact htm
  · intro t htv v hex
    have htm : t ∈ mergedTags N ls rs := by
      rw [hmerged, jsSetDedup_mem]
      exact htv
    have hvmem : v ∈ resolvedVersions N ls rs := by
      rw [hres]
      exact List.mem_filterMap.mpr ⟨t, htm, hex⟩
    exact hbestmax v hvmem


/-! ## The claims -/

/-- C1: In `getLatestTagVersion`, a failure of the remote tag enumeration
step is treated as "no remote tags found" and resolution continues with the
local tags: the remote command is a `sh -c` pipeline ending in `sed`, so a
failure of `git ls-remote` itself yields exit 0 with empty stdout
(`remotePipelineStdout`), and for every namespace (within the plain-text
fragment) and every local tag list with at least one valid tag the function
returns the maximum version among the local tags, not the `0.0.0`
fallback. -/
theorem claim_C1 (N : String) (hN : ∀ c ∈ N.data, plainChar c = true)
    (ls errMsg processed : String)
    (hne : (splitNl (trimChars ls.data)).filter
      (fun t => isValidVersion (String.mk t) N) ≠ []) :
    ∃ best,
      getLatestTagVersion N true (.ok ls)
          (remotePipelineStdout (.error errMsg) processed) = String.mk best ∧
      (∃ t ∈ (splitNl (trimChars ls.data)).filter
          (fun t => isValidVersion (String.mk t) N),
        extractVersion N t = some best) ∧
      ∀ t ∈ (splitNl (trimChars ls.data)).filter
          (fun t => isValidVersion (String.mk t) N),
        ∀ v, extractVersion N t = some v → lexLe (tripleOf v) (tripleOf best) := by
  have hvcEq : validCandidates N ls "" =
      (splitNl (trimChars ls.data)).filter (fun t => isValidVersion (String.mk t) N) := by
    unfold validCandidates
    rw [List.filter_append]
    have hfalse : isValidVersion (String.mk []) N = false := by
      by_contra hcontra
      rw [Bool.not_eq_false] at hcontra
      obtain ⟨v, habs, -⟩ := (isValidVersion_plain_iff N (String.mk []) hN).mp hcontra
      simp at habs
    have hempty : (splitNl (trimChars ("" : String).data)).filter
        (fun t => isValidVersion (String.mk t) N) = [] := by
      show ([[]] : List (List Char)).filter (fun t => isValidVersion (String.mk t) N) = []
      simp [hfalse]
    rw [hempty, List.append_nil]
  have hpipe : remotePipelineStdout (.error errMsg) processed = .ok "" := rfl
  rw [hpipe]
  have hmax := resolve_max N hN ls "" (by rw [hvcEq]; exact hne)
  rw [hvcEq] at hmax
  exact hmax

/-- Witness for C1 at namespace `app` with local tags
`@app/1.0.0` and `@app/2.0.0` and a failing `git ls-remote`. -/
theorem claim_C1_witness :
    (∀ c ∈ ("app" : String).data, plainChar c = true) ∧
    ((splitNl (trimChars ("@app/1.0.0\n@app/2.0.0" : String).data)).filter
      (fun t => isValidVersion (String.mk t) "app") ≠ []) ∧
    ∃ best,
      getLatestTagVersion "app" true (.ok "@app/1.0.0\n@app/2.0.0")
          (remotePipelineStdout (.error "fatal: unable to access remote") "unused")
        = String.mk best ∧
      (∃ t ∈ (splitNl (trimChars ("@app/1.0.0\n@app/2.0.0" : String).data)).filter
          (fun t => isValidVersion (String.mk t) "app"),
        extractVersion "app" t = some best) ∧
      ∀ t ∈ (splitNl (trimChars ("@app/1.0.0\n@app/2.0.0" : String).data)).filter
          (fun t => isValidVersion (String.mk t) "app"),
        ∀ v, extractVersion "app" t = some v → lexLe (tripleOf v) (tripleOf best) :=
  ⟨by decide, by decide,
    claim_C1 "app" (by decide) "@app/1.0.0\n@app/2.0.0"
      "fatal: unable to access remote" "unused" (by decide)⟩

/-- C2: the claim that `createTag` passes the message safely is false of the
code: the command text interpolates the message into a double-quoted segment
of one command string, so a message containing quotes changes the argument
structure.  Two runs differing only in the message produce argument vectors
of different shapes, and the quoted message is not carried verbatim as the
single `-m` argument. -/
theorem claim_C2_quote_breaks_argv :
    shWords (createTagCommand "app" "1.0.0" "abc123" "a\" \"b") =
      some ["git", "tag", "-a", "@app/1.0.0", "abc123", "-m", "a", "b"] ∧
    shWords (createTagCommand "app" "1.0.0" "abc123" "hello") =
      some ["git", "tag", "-a", "@app/1.0.0", "abc123", "-m", "hello"] := by
  constructor
  · rfl
  · rfl

/-- C3 (amended): for a namespace with no regex-significant characters,
tag-name matching is namespace-delimited and literal — a tag is accepted
iff it is exactly `@<namespace>/<digit triple>` — but the namespace is
spliced into the pattern unescaped, so it is not matched literally in
general (see the counterexample). -/
theorem claim_C3 :
    (∀ N T : String, (∀ c ∈ N.data, plainChar c = true) →
      (isValidVersion T N = true ↔
        ∃ v, T.data = '@' :: N.data ++ '/' :: v ∧ TripleShape v)) ∧
    isValidVersion "@app-extra/2.0.0" "app" = false :=
  ⟨fun N T hN => isValidVersion_plain_iff N T hN, by rfl⟩

/-- Witness for C3 at namespace `app` and tag `@app/1.0.0`. -/
theorem claim_C3_witness :
    (∀ c ∈ ("app" : String).data, plainChar c = true) ∧
    (isValidVersion "@app/1.0.0" "app" = true ↔
      ∃ v, ("@app/1.0.0" : String).data = '@' :: ("app" : String).data ++ '/' :: v ∧
        TripleShape v) :=
  ⟨by decide, claim_C3.1 "app" "@app/1.0.0" (by decide)⟩

/-- Counterexample to C3 as stated: the namespace `a.p` contains a regex
metacharacter and accepts the tag `@axp/1.0.0` of the different namespace
`axp`, so the namespace is not compared literally. -/
theorem claim_C3_counterexample :
    isValidVersion "@axp/1.0.0" "a.p" = true ∧ ("axp" : String) ≠ "a.p" := by
  constructor
  · rfl
  · decide

/-- C4: resolution discards malformed candidates and returns the maximum
surviving version under lexicographic triple order; in particular for
namespace `app` with candidates `@app/1.0.0`, `@app/not-a-version` and
`@app/1.2` the result is `1.0.0`. -/
theorem claim_C4 :
    (∀ N : String, (∀ c ∈ N.data, plainChar c = true) →
      ∀ ls rs : String, validCandidates N ls rs ≠ [] →
      ∃ best, getLatestTagVersion N true (.ok ls) (.ok rs) = String.mk best ∧
        (∃ t ∈ validCandidates N ls rs, extractVersion N t = some best) ∧
        ∀ t ∈ validCandidates N ls rs, ∀ v, extractVersion N t = some v →
          lexLe (tripleOf v) (tripleOf best)) ∧
    getLatestTagVersion "app" true (.ok "@app/1.0.0\n@app/not-a-version\n@app/1.2")
      (.ok "") = "1.0.0" :=
  ⟨fun N hN ls rs hne => resolve_max N hN ls rs hne, by rfl⟩

/-- Witness for C4's universally quantified part at namespace `billing`,
one local and one remote tag. -/
theorem claim_C4_witness :
    (∀ c ∈ ("billing" : String).data, plainChar c = true) ∧
    validCandidates "billing" "@billing/1.2.0" "@billing/1.3.0" ≠ [] ∧
    ∃ best, getLatestTagVersion "billing" true (.ok "@billing/1.2.0")
        (.ok "@billing/1.3.0") = String.mk best ∧
      (∃ t ∈ validCandidates "billing" "@billing/1.2.0" "@billing/1.3.0",
        extractVersion "billing" t = some best) ∧
      ∀ t ∈ validCandidates "billing" "@billing/1.2.0" "@billing/1.3.0",
        ∀ v, extractVersion "billing" t = some v →
          lexLe (tripleOf v) (tripleOf best) :=
  ⟨by decide, by decide,
    claim_C4.1 "billing" (by decide) "@billing/1.2.0" "@billing/1.3.0" (by decide)⟩

/-- C5: `getLatestTagVersion` never propagates an exception — every
subprocess failure is an `Except.error` argument absorbed by the function —
and it returns the `0.0.0` fallback when the root is not a repository,
when either enumeration command throws, and when no valid candidate
survives filtering. -/
theorem claim_C5 (N : String) (isRepo : Bool) (lout rout : Except String String) :
    (isRepo = false → getLatestTagVersion N isRepo lout rout = "0.0.0") ∧
    (∀ e, lout = .error e → getLatestTagVersion N isRepo lout rout = "0.0.0") ∧
    (∀ e, rout = .error e → getLatestTagVersion N isRepo lout rout = "0.0.0") ∧
    (∀ ls rs, lout = .ok ls → rout = .ok rs → validCandidates N ls rs = [] →
      getLatestTagVersion N isRepo lout rout = "0.0.0") := by
  refine ⟨?_, ?_, ?_, ?_⟩
  · rintro rfl
    rfl
  · rintro e rfl
    cases isRepo <;> rfl
  · rintro e rfl
    cases isRepo
    · rfl
    · cases lout with
      | error e2 => rfl
      | ok ls => rfl
  · rintro ls rs rfl rfl hvc
    cases isRepo
    · rfl
    · rw [getLatestTagVersion_ok_ok]
      have hm : mergedTags N ls rs = [] := by
        rw [show mergedTags N ls rs = jsSetDedup (validCandidates N ls rs) from rfl, hvc]
        rfl
      rw [hm]
      rfl

/-- Witness for C5: each fallback case at a concrete input. -/
theorem claim_C5_witness :
    getLatestTagVersion "app" false (.ok "@app/1.0.0") (.ok "") = "0.0.0" ∧
    getLatestTagVersion "app" true (.error "boom") (.ok "") = "0.0.0" ∧
    getLatestTagVersion "app" true (.ok "@app/1.0.0") (.error "boom") = "0.0.0" ∧
    getLatestTagVersion "app" true (.ok "no tags here") (.ok "") = "0.0.0" :=
  ⟨(claim_C5 "app" false (.ok "@app/1.0.0") (.ok "")).1 rfl,
   (claim_C5 "app" true (.error "boom") (.ok "")).2.1 "boom" rfl,
   (claim_C5 "app" true (.ok "@app/1.0.0") (.error "boom")).2.2.1 "boom" rfl,
   (claim_C5 "app" true (.ok "no tags here") (.ok "")).2.2.2 "no tags here" ""
     rfl rfl (by decide)⟩


theorem natRepr_no_dot (n : Nat) : ∀ x ∈ natRepr n, x ≠ '.' :=
  fun x hx => digit_ne_dot (List.all_eq_true.mp (natRepr_all_digits n) x hx)

theorem splitDot_tripleString (a b c : Nat) :
    splitDot (tripleString a b c).data = [natRepr a, natRepr b, natRepr c] := by
  show splitDot (natRepr a ++ '.' :: (natRepr b ++ '.' :: natRepr c)) = _
  exact splitDot_triple _ _ _ (natRepr_no_dot a) (natRepr_no_dot b) (natRepr_no_dot c)

theorem jsJoinDot_three (x y z : List Char) :
    jsJoinDot [x, y, z] = x ++ '.' :: (y ++ '.' :: z) := by
  rfl

/-- C6: for every version triple, `incrementVersion` is pure and total and
advances exactly the requested component, resetting the lower-order ones:
patch gives `(a, b, c+1)`, minor gives `(a, b+1, 0)`, major gives
`(a+1, 0, 0)`. -/
theorem claim_C6 (a b c : Nat) :
    incrementVersion (tripleString a b c) .patch = .ok (tripleString a b (c + 1)) ∧
    incrementVersion (tripleString a b c) .minor = .ok (tripleString a (b + 1) 0) ∧
    incrementVersion (tripleString a b c) .major = .ok (tripleString (a + 1) 0 0) := by
  have hparts : (splitDot (tripleString a b c).data).map jsNumber =
      [some a, some b, some c] := by
    rw [splitDot_tripleString]
    simp [jsNumber_natRepr]
  refine ⟨?_, ?_, ?_⟩ <;>
    (unfold incrementVersion
     rw [hparts]
     simp only [List.length_cons, List.length_nil, List.getD, List.getD_cons_zero,
       List.getD_cons_succ, numAdd1, List.map, jsNumToString, jsJoinDot_three]
     rfl)

/-- C7: the comparator of `getLatestTagVersion` is a total order on valid
triples: the comparator is negative exactly when its swap is positive
(negative means the first argument is the greater version, since it sorts
descending), a triple compares equal to itself, a zero result forces equal
triples, and the nonpositive relation is transitive — lexicographic on
major, then minor, then patch. -/
theorem claim_C7 (a b c : List Char) (ta tb tc : Nat × Nat × Nat)
    (ha : versionTriple a = some ta) (hb : versionTriple b = some tb)
    (hc : versionTriple c = some tc) :
    ((∃ k, versionCmp a b = some k ∧ k < 0) ↔
      (∃ k, versionCmp b a = some k ∧ 0 < k)) ∧
    versionCmp a a = some 0 ∧
    (versionCmp a b = some 0 → ta = tb) ∧
    ((∃ k, versionCmp a b = some k ∧ k ≤ 0) →
      (∃ k, versionCmp b c = some k ∧ k ≤ 0) →
      ∃ k, versionCmp a c = some k ∧ k ≤ 0) := by
  obtain ⟨a1, a2, a3⟩ := ta
  obtain ⟨b1, b2, b3⟩ := tb
  obtain ⟨c1, c2, c3⟩ := tc
  rw [versionCmp_of_triples ha hb, versionCmp_of_triples hb ha,
    versionCmp_of_triples ha ha, versionCmp_of_triples hb hc,
    versionCmp_of_triples ha hc]
  dsimp only
  refine ⟨?_, ?_, ?_, ?_⟩
  · simp only [Option.some.injEq]
    constructor
    · rintro ⟨k, hk, hneg⟩
      refine ⟨_, rfl, ?_⟩
      rw [← hk] at hneg
      split_ifs at hneg ⊢ <;> omega
    · rintro ⟨k, hk, hpos⟩
      refine ⟨_, rfl, ?_⟩
      rw [← hk] at hpos
      split_ifs at hpos ⊢ <;> omega
  · simp
  · intro h
    injection h with h0
    simp only [Prod.mk.injEq]
    split_ifs at h0 <;> omega
  · simp only [Option.some.injEq]
    rintro ⟨k1, hk1, hle1⟩ ⟨k2, hk2, hle2⟩
    refine ⟨_, rfl, ?_⟩
    rw [← hk1] at hle1
    rw [← hk2] at hle2
    split_ifs at hle1 hle2 ⊢ <;> omega

/-- Witness for C7 at the triple strings `1.2.3`, `1.10.0` and `2.0.0`. -/
theorem claim_C7_witness :
    versionTriple ("1.2.3" : String).data = some (1, 2, 3) ∧
    versionTriple ("1.10.0" : String).data = some (1, 10, 0) ∧
    versionTriple ("2.0.0" : String).data = some (2, 0, 0) ∧
    (((∃ k, versionCmp ("1.2.3" : String).data ("1.10.0" : String).data = some k ∧
          k < 0) ↔
        (∃ k, versionCmp ("1.10.0" : String).data ("1.2.3" : String).data = some k ∧
          0 < k)) ∧
      versionCmp ("1.2.3" : String).data ("1.2.3" : String).data = some 0 ∧
      (versionCmp ("1.2.3" : String).data ("1.10.0" : String).data = some 0 →
        (1, 2, 3) = (1, 10, 0)) ∧
      ((∃ k, versionCmp ("1.2.3" : String).data ("1.10.0" : String).data = some k ∧
          k ≤ 0) →
        (∃ k, versionCmp ("1.10.0" : String).data ("2.0.0" : String).data = some k ∧
          k ≤ 0) →
        ∃ k, versionCmp ("1.2.3" : String).data ("2.0.0" : String).data = some k ∧
          k ≤ 0)) :=
  ⟨by rfl, by rfl, by rfl,
    claim_C7 ("1.2.3" : String).data ("1.10.0" : String).data ("2.0.0" : String).data
      (1, 2, 3) (1, 10, 0) (2, 0, 0) (by rfl) (by rfl) (by rfl)⟩

/-- C8: `createAndPushTag` runs the create step first; when it fails the
push step never runs and the result is failure; overall success holds
exactly when the create step and the push step both succeed (the second
component of the result records whether the push step ran). -/
theorem claim_C8 (createSuccess : Bool) (pushCmdOut : Except String String) :
    (createSuccess = false →
      createAndPushTag createSuccess pushCmdOut = (false, false)) ∧
    ((createAndPushTag createSuccess pushCmdOut).2 = true ↔ createSuccess = true) ∧
    ((createAndPushTag createSuccess pushCmdOut).1 = true ↔
      createSuccess = true ∧ (pushTag pushCmdOut).1 = true) := by
  cases createSuccess <;> cases pushCmdOut <;> simp [createAndPushTag, pushTag]

/-- Witness for C8: with a failed create the push never runs; with a
successful create and push the whole operation succeeds. -/
theorem claim_C8_witness :
    createAndPushTag false (.ok "pushed") = (false, false) ∧
    ((createAndPushTag true (.ok "pushed")).1 = true ↔
      true = true ∧ (pushTag (.ok "pushed")).1 = true) :=
  ⟨(claim_C8 false (.ok "pushed")).1 rfl, (claim_C8 true (.ok "pushed")).2.2⟩

/-- C9: the claim that `incrementVersion` rejects every malformed input is
false of the code — a three-segment input with a non-numeric component is
silently coerced through `NaN` arithmetic: `incrementVersion "1.2.x"` patch
returns `"1.2.NaN"` without signalling, while only a wrong segment count
raises the invalid-format error. -/
theorem claim_C9_nan_coercion :
    incrementVersion "1.2.x" .patch = .ok "1.2.NaN" ∧
    incrementVersion "1.2" .patch = .error "无效的版本号格式: 1.2" := by
  constructor
  · rfl
  · rfl

/-- C10: unlike the other public operations, which degrade to fallback
values, `getLatestCommitId` propagates an exception to its caller when the
root is not a repository or the HEAD read fails, and it only ever returns
`.ok` when the probe and the command both succeeded; by contrast
`getLatestTagVersion` and `createTag` fall back to `"0.0.0"` and `false`
on the not-a-repository condition. -/
theorem claim_C10 (revOut : Except String String) :
    getLatestCommitId false revOut = .error "当前目录不是git仓库" ∧
    (∀ e, getLatestCommitId true (.error e) = .error e) ∧
    (∀ isRepo out, getLatestCommitId isRepo revOut = .ok out →
      isRepo = true ∧ ∃ s, revOut = .ok s) ∧
    (∀ N l r, getLatestTagVersion N false l r = "0.0.0") ∧
    (∀ t, createTag false t = false) := by
  refine ⟨rfl, fun e => rfl, ?_, fun N l r => rfl, fun t => rfl⟩
  intro isRepo out h
  cases isRepo
  · exact absurd h (by simp [getLatestCommitId])
  · cases revOut with
    | error e => exact absurd h (by simp [getLatestCommitId])
    | ok s => exact ⟨rfl, s, rfl⟩

/-- Witness for C10: both exception-propagating cases at concrete inputs. -/
theorem claim_C10_witness :
    getLatestCommitId false (.ok "abc123\n") = .error "当前目录不是git仓库" ∧
    getLatestCommitId true (.error "fatal: not a git repository") =
      .error "fatal: not a git repository" :=
  ⟨(claim_C10 (.ok "abc123\n")).1,
   (claim_C10 (.ok "abc123\n")).2.1 "fatal: not a git repository"⟩

end GitTag
